import Mathlib

/-!
A verification of the froggy component-storage engine.

The Rust sources are embedded shallowly: pure functions become Lean functions
on `Nat` and `List`, mutation of the storage and of the pending journal becomes
explicit state passing.  The `u64` bitfield word of `src/bitfield.rs` is a
`Nat` with an explicit `% 2 ^ 64` wherever the source's `u64` arithmetic could
wrap.  The source's `RefCount` and `Epoch` are `u16`; the storage-level model
uses unbounded `Nat` for them (the source's debug build panics on overflow, so
below `2 ^ 16` the two agree exactly).
-/

/-! ## Bitfield (src/bitfield.rs, 64-bit target: 40 / 16 / 8 bits) -/

/-- `INDEX_BITS` for the 64-bit target. -/
def INDEX_BITS : Nat := 40

/-- `EPOCH_BITS` for the 64-bit target. -/
def EPOCH_BITS : Nat := 16

/-- `STORAGE_ID_BITS` for the 64-bit target. -/
def STORAGE_ID_BITS : Nat := 8

/-- `INDEX_MASK = (1 << INDEX_BITS) - 1`. -/
def INDEX_MASK : Nat := (1 <<< INDEX_BITS) - 1

/-- `EPOCH_OFFSET = INDEX_BITS`. -/
def EPOCH_OFFSET : Nat := INDEX_BITS

/-- `EPOCH_MASK = ((1 << EPOCH_BITS) - 1) << EPOCH_OFFSET`. -/
def EPOCH_MASK : Nat := ((1 <<< EPOCH_BITS) - 1) <<< EPOCH_OFFSET

/-- `STORAGE_ID_OFFSET = EPOCH_OFFSET + EPOCH_BITS`. -/
def STORAGE_ID_OFFSET : Nat := EPOCH_OFFSET + EPOCH_BITS

/-- `STORAGE_ID_MASK = ((1 << STORAGE_ID_BITS) - 1) << STORAGE_ID_OFFSET`. -/
def STORAGE_ID_MASK : Nat := ((1 <<< STORAGE_ID_BITS) - 1) <<< STORAGE_ID_OFFSET

/-- The `u64` complement `!EPOCH_MASK` used by `PointerData::with_epoch`. -/
def NOT_EPOCH_MASK : Nat := 2 ^ 64 - 1 - EPOCH_MASK

/-- `PointerData::new(index, epoch, storage)`: the packed word
`index + (epoch << EPOCH_OFFSET) + (storage << STORAGE_ID_OFFSET)` (the source
debug-asserts `index >> INDEX_BITS == 0`; our theorems carry the lane bounds as
hypotheses). -/
def PointerData.new (index epoch storage : Nat) : Nat :=
  (index + (epoch <<< EPOCH_OFFSET) + (storage <<< STORAGE_ID_OFFSET)) % 2 ^ 64

/-- `PointerData::get_index`. -/
def PointerData.get_index (v : Nat) : Nat := v &&& INDEX_MASK

/-- `PointerData::get_epoch`. -/
def PointerData.get_epoch (v : Nat) : Nat := (v &&& EPOCH_MASK) >>> EPOCH_OFFSET

/-- `PointerData::get_storage_id`. -/
def PointerData.get_storage_id (v : Nat) : Nat :=
  (v &&& STORAGE_ID_MASK) >>> STORAGE_ID_OFFSET

/-- `PointerData::with_epoch(epoch)`: clear the epoch lane and add the new
epoch shifted into place. -/
def PointerData.with_epoch (v epoch : Nat) : Nat :=
  ((v &&& NOT_EPOCH_MASK) + (epoch <<< EPOCH_OFFSET)) % 2 ^ 64

theorem shiftRight_land (a b k : Nat) :
    (a &&& b) >>> k = (a >>> k) &&& (b >>> k) := by
  apply Nat.eq_of_testBit_eq
  intro i
  simp [Nat.testBit_shiftRight, Nat.testBit_and]

theorem PointerData.get_index_eq (v : Nat) :
    PointerData.get_index v = v % 2 ^ 40 := by
  show v &&& INDEX_MASK = v % 2 ^ 40
  have h : INDEX_MASK = 2 ^ 40 - 1 := by decide
  rw [h, Nat.and_pow_two_sub_one_eq_mod]

theorem PointerData.get_epoch_eq (v : Nat) :
    PointerData.get_epoch v = v / 2 ^ 40 % 2 ^ 16 := by
  show (v &&& EPOCH_MASK) >>> 40 = v / 2 ^ 40 % 2 ^ 16
  rw [shiftRight_land]
  have h : EPOCH_MASK >>> 40 = 2 ^ 16 - 1 := by decide
  rw [h, Nat.and_pow_two_sub_one_eq_mod, Nat.shiftRight_eq_div_pow]

theorem PointerData.get_storage_id_eq (v : Nat) :
    PointerData.get_storage_id v = v / 2 ^ 56 % 2 ^ 8 := by
  show (v &&& STORAGE_ID_MASK) >>> 56 = v / 2 ^ 56 % 2 ^ 8
  rw [shiftRight_land]
  have h : STORAGE_ID_MASK >>> 56 = 2 ^ 8 - 1 := by decide
  rw [h, Nat.and_pow_two_sub_one_eq_mod, Nat.shiftRight_eq_div_pow]

theorem pow_numerals :
    (2:Nat) ^ 40 = 1099511627776 ∧ (2:Nat) ^ 16 = 65536 ∧ (2:Nat) ^ 8 = 256 ∧
    (2:Nat) ^ 56 = 72057594037927936 ∧ (2:Nat) ^ 64 = 18446744073709551616 := by
  norm_num

theorem PointerData.new_eq (index epoch storage : Nat) (hi : index < 2 ^ 40)
    (he : epoch < 2 ^ 16) (hs : storage < 2 ^ 8) :
    PointerData.new index epoch storage
      = index + epoch * 2 ^ 40 + storage * 2 ^ 56 := by
  show (index + (epoch <<< 40) + (storage <<< 56)) % 2 ^ 64 = _
  rw [Nat.shiftLeft_eq, Nat.shiftLeft_eq]
  apply Nat.mod_eq_of_lt
  obtain ⟨e40, e16, e8, e56, e64⟩ := pow_numerals
  rw [e40, e16, e8, e56, e64] at *
  omega

theorem lane_eq {u v : Nat} (hu : u < 2 ^ 64) (hv : v < 2 ^ 64)
    (h0 : u % 2 ^ 40 = v % 2 ^ 40)
    (h1 : u / 2 ^ 40 % 2 ^ 16 = v / 2 ^ 40 % 2 ^ 16)
    (h2 : u / 2 ^ 56 = v / 2 ^ 56) : u = v := by
  obtain ⟨e40, e16, e8, e56, e64⟩ := pow_numerals
  rw [e40, e16, e56, e64] at *
  omega

theorem land_not_epoch_mask (index epoch storage : Nat) (hi : index < 2 ^ 40)
    (he : epoch < 2 ^ 16) (hs : storage < 2 ^ 8) :
    (index + epoch * 2 ^ 40 + storage * 2 ^ 56) &&& NOT_EPOCH_MASK
      = index + storage * 2 ^ 56 := by
  obtain ⟨e40, e16, e8, e56, e64⟩ := pow_numerals
  set x := index + epoch * 2 ^ 40 + storage * 2 ^ 56 with hx
  have hxlt : x < 2 ^ 64 := by rw [hx, e40, e56, e64]; omega
  have hult : x &&& NOT_EPOCH_MASK < 2 ^ 64 := lt_of_le_of_lt Nat.and_le_left hxlt
  have hvlt : index + storage * 2 ^ 56 < 2 ^ 64 := by rw [e56, e64]; omega
  apply lane_eq hult hvlt
  · have l1 : (x &&& NOT_EPOCH_MASK) % 2 ^ 40
        = (x &&& NOT_EPOCH_MASK) &&& (2 ^ 40 - 1) :=
      (Nat.and_pow_two_sub_one_eq_mod _ 40).symm
    have l2 : NOT_EPOCH_MASK &&& (2 ^ 40 - 1) = 2 ^ 40 - 1 := by decide
    rw [l1, Nat.land_assoc, l2, Nat.and_pow_two_sub_one_eq_mod, hx, e40, e56]
    omega
  · have l1 : (x &&& NOT_EPOCH_MASK) / 2 ^ 40 % 2 ^ 16
        = ((x &&& NOT_EPOCH_MASK) >>> 40) &&& (2 ^ 16 - 1) := by
      rw [Nat.shiftRight_eq_div_pow, Nat.and_pow_two_sub_one_eq_mod]
    have l2 : (NOT_EPOCH_MASK >>> 40) &&& (2 ^ 16 - 1) = 0 := by decide
    rw [l1, shiftRight_land, Nat.land_assoc, l2, Nat.and_zero, e40, e16, e56]
    omega
  · have l1 : (x &&& NOT_EPOCH_MASK) / 2 ^ 56
        = (x >>> 56) &&& (NOT_EPOCH_MASK >>> 56) := by
      rw [← Nat.shiftRight_eq_div_pow, shiftRight_land]
    have l2 : NOT_EPOCH_MASK >>> 56 = 2 ^ 8 - 1 := by decide
    rw [l1, l2, Nat.and_pow_two_sub_one_eq_mod, Nat.shiftRight_eq_div_pow,
      hx, e40, e8, e56]
    omega

theorem PointerData.getters_new (index epoch storage : Nat) (hi : index < 2 ^ 40)
    (he : epoch < 2 ^ 16) (hs : storage < 2 ^ 8) :
    PointerData.get_index (PointerData.new index epoch storage) = index ∧
    PointerData.get_epoch (PointerData.new index epoch storage) = epoch ∧
    PointerData.get_storage_id (PointerData.new index epoch storage) = storage := by
  rw [PointerData.new_eq index epoch storage hi he hs]
  obtain ⟨e40, e16, e8, e56, e64⟩ := pow_numerals
  refine ⟨?_, ?_, ?_⟩
  · rw [PointerData.get_index_eq, e40, e16, e8, e56] at *
    omega
  · rw [PointerData.get_epoch_eq, e40, e16, e8, e56] at *
    omega
  · rw [PointerData.get_storage_id_eq, e40, e16, e8, e56] at *
    omega

theorem PointerData.with_epoch_new (index epoch storage e2 : Nat)
    (hi : index < 2 ^ 40) (he : epoch < 2 ^ 16) (hs : storage < 2 ^ 8)
    (he2 : e2 < 2 ^ 16) :
    PointerData.with_epoch (PointerData.new index epoch storage) e2
      = PointerData.new index e2 storage := by
  rw [PointerData.new_eq index epoch storage hi he hs,
    PointerData.new_eq index e2 storage hi he2 hs]
  show ((_ &&& NOT_EPOCH_MASK) + (e2 <<< 40)) % 2 ^ 64 = _
  rw [land_not_epoch_mask index epoch storage hi he hs, Nat.shiftLeft_eq]
  obtain ⟨e40, e16, e8, e56, e64⟩ := pow_numerals
  rw [e40, e16, e8, e56, e64] at *
  rw [Nat.mod_eq_of_lt (by omega)]
  omega

/-- C5: for every index `i`, epoch `e`, storage id `s` fitting the 40 / 16 / 8
bit lanes of the 64-bit target and every epoch `e2` fitting its lane,
`PointerData::new(i, e, s)` reads back `i`, `e`, `s` through the three getters,
and `with_epoch(e2)` overwrites only the epoch lane: index and storage id are
unchanged while `get_epoch` returns `e2`. -/
theorem spec_C5_bitfield (i e s e2 : Nat) (hi : i < 2 ^ 40) (he : e < 2 ^ 16)
    (hs : s < 2 ^ 8) (he2 : e2 < 2 ^ 16) :
    PointerData.get_index (PointerData.new i e s) = i ∧
    PointerData.get_epoch (PointerData.new i e s) = e ∧
    PointerData.get_storage_id (PointerData.new i e s) = s ∧
    PointerData.get_index (PointerData.with_epoch (PointerData.new i e s) e2) = i ∧
    PointerData.get_storage_id
      (PointerData.with_epoch (PointerData.new i e s) e2) = s ∧
    PointerData.get_epoch (PointerData.with_epoch (PointerData.new i e s) e2)
      = e2 := by
  have h1 := PointerData.getters_new i e s hi he hs
  have h2 := PointerData.getters_new i e2 s hi he2 hs
  rw [PointerData.with_epoch_new i e s e2 hi he hs he2]
  exact ⟨h1.1, h1.2.1, h1.2.2, h2.1, h2.2.2, h2.2.1⟩

theorem spec_C5_bitfield_witness :
    1 < 2 ^ 40 ∧ 2 < 2 ^ 16 ∧ 3 < 2 ^ 8 ∧ 5 < 2 ^ 16 ∧
    (PointerData.get_index (PointerData.new 1 2 3) = 1 ∧
     PointerData.get_epoch (PointerData.new 1 2 3) = 2 ∧
     PointerData.get_storage_id (PointerData.new 1 2 3) = 3 ∧
     PointerData.get_index (PointerData.with_epoch (PointerData.new 1 2 3) 5) = 1 ∧
     PointerData.get_storage_id
       (PointerData.with_epoch (PointerData.new 1 2 3) 5) = 3 ∧
     PointerData.get_epoch (PointerData.with_epoch (PointerData.new 1 2 3) 5)
       = 5) :=
  ⟨by norm_num, by norm_num, by norm_num, by norm_num,
   spec_C5_bitfield 1 2 3 5 (by norm_num) (by norm_num) (by norm_num)
     (by norm_num)⟩

/-! ## Pointer comparison (src/pointer.rs) -/

/-- `impl PartialOrd for Pointer` (src/pointer.rs): when the two packed words
carry the same storage id, compare their indices; otherwise `None`.  A pointer
is compared through its packed word `data` only. -/
def Pointer.partial_cmp (a b : Nat) : Option Ordering :=
  if PointerData.get_storage_id a = PointerData.get_storage_id b then
    some (compare (PointerData.get_index a) (PointerData.get_index b))
  else none

/-- Rust `a < b` through `PartialOrd`: `partial_cmp` returns `Some(Less)`. -/
def Pointer.lt (a b : Nat) : Prop := Pointer.partial_cmp a b = some Ordering.lt

/-- Rust `a > b` through `PartialOrd`: `partial_cmp` returns `Some(Greater)`. -/
def Pointer.gt (a b : Nat) : Prop := Pointer.partial_cmp a b = some Ordering.gt

/-- `impl PartialEq for Pointer` (src/pointer.rs): equality of the whole packed
words (`self.data == other.data`). -/
def Pointer.eq (a b : Nat) : Prop := a = b

/-- C6: for two pointers with the same storage id, `a < b` holds exactly when
`a`'s index is below `b`'s; for different storage ids, `a < b`, `a > b` and
`a == b` are all false (`partial_cmp` is `None` and whole-word equality
fails). -/
theorem spec_C6_partial_ord (a b : Nat) :
    (PointerData.get_storage_id a = PointerData.get_storage_id b →
      (Pointer.lt a b ↔ PointerData.get_index a < PointerData.get_index b)) ∧
    (PointerData.get_storage_id a ≠ PointerData.get_storage_id b →
      ¬ Pointer.lt a b ∧ ¬ Pointer.gt a b ∧ ¬ Pointer.eq a b) := by
  constructor
  · intro h
    unfold Pointer.lt Pointer.partial_cmp
    rw [if_pos h]
    simp [Nat.compare_eq_lt]
  · intro h
    refine ⟨?_, ?_, ?_⟩
    · unfold Pointer.lt Pointer.partial_cmp
      rw [if_neg h]
      simp
    · unfold Pointer.gt Pointer.partial_cmp
      rw [if_neg h]
      simp
    · intro hab
      exact h (congrArg PointerData.get_storage_id hab)

theorem spec_C6_partial_ord_witness :
    (PointerData.get_storage_id (PointerData.new 1 2 3)
       = PointerData.get_storage_id (PointerData.new 4 5 3) ∧
     (Pointer.lt (PointerData.new 1 2 3) (PointerData.new 4 5 3) ↔
       PointerData.get_index (PointerData.new 1 2 3)
         < PointerData.get_index (PointerData.new 4 5 3))) ∧
    (PointerData.get_storage_id (PointerData.new 1 2 3)
       ≠ PointerData.get_storage_id (PointerData.new 4 5 6) ∧
     (¬ Pointer.lt (PointerData.new 1 2 3) (PointerData.new 4 5 6) ∧
      ¬ Pointer.gt (PointerData.new 1 2 3) (PointerData.new 4 5 6) ∧
      ¬ Pointer.eq (PointerData.new 1 2 3) (PointerData.new 4 5 6))) :=
  ⟨⟨by decide, (spec_C6_partial_ord _ _).1 (by decide)⟩,
   ⟨by decide, (spec_C6_partial_ord _ _).2 (by decide)⟩⟩

/-! ## The pending journal (src/lib.rs) and weak pointers (src/pointer.rs) -/

/-- `DeadComponentError`: the error returned from upgrading a dead
`WeakPointer`. -/
inductive DeadComponentError where
  | mk
deriving DecidableEq, Repr

instance {ε α : Type} [DecidableEq ε] [DecidableEq α] :
    DecidableEq (Except ε α) := fun a b =>
  match a, b with
  | .ok x, .ok y =>
      if h : x = y then isTrue (by rw [h]) else isFalse (by simp [h])
  | .error x, .error y =>
      if h : x = y then isTrue (by rw [h]) else isFalse (by simp [h])
  | .ok _, .error _ => isFalse (by simp)
  | .error _, .ok _ => isFalse (by simp)

/-- The abstract three-lane view of a packed `PointerData` word, used by the
storage-level model.  By `spec_C5_bitfield` the packed word and the lane triple
are in exact correspondence while each lane fits its width; the storage-level
model works on the lanes directly.  `epoch` is `u16` in the source and `Nat`
here (the debug build panics on overflow). -/
structure HandleBits where
  index : Nat
  epoch : Nat
  sid : Nat
deriving DecidableEq, Repr

/-- `Pending` (src/lib.rs): the journal of deferred reference-count updates,
plus the per-slot epoch vector. -/
structure Pending where
  add_ref : List Nat
  sub_ref : List Nat
  epoch : List Nat
deriving DecidableEq, Repr

/-- `Pending::get_epoch(index)` (src/lib.rs lines 86-89):
`*self.epoch.get(index).unwrap_or(&0)` — the entry, or 0 out of range. -/
def Pending.get_epoch (p : Pending) (index : Nat) : Nat := p.epoch.getD index 0

/-- `impl Clone for Pointer` (src/pointer.rs): push the pointer's index onto
`add_ref`; the new pointer carries the same bits. -/
def Pending.push_add (p : Pending) (i : Nat) : Pending :=
  { p with add_ref := p.add_ref ++ [i] }

/-- `impl Drop for Pointer` (src/pointer.rs): push the pointer's index onto
`sub_ref`. -/
def Pending.push_sub (p : Pending) (i : Nat) : Pending :=
  { p with sub_ref := p.sub_ref ++ [i] }

/-- `WeakPointer::upgrade` (src/pointer.rs lines 174-186): under the journal
lock, compare the journal's epoch entry for the weak pointer's index with the
epoch stored in its bits.  On mismatch return `DeadComponentError` and leave
the journal untouched; otherwise push the index onto `add_ref` and return a
strong pointer with the identical bits.  The pair also returns the journal
state after the call. -/
def WeakPointer.upgrade (d : HandleBits) (p : Pending) :
    Except DeadComponentError HandleBits × Pending :=
  if p.get_epoch d.index ≠ d.epoch then (Except.error DeadComponentError.mk, p)
  else (Except.ok d, p.push_add d.index)

/-- C2: `upgrade` fails with `DeadComponentError` exactly when the journal's
epoch entry for the handle's index (0 when the index is beyond the epoch
vector) differs from the epoch in the handle; on error the journal is
unchanged, and on success exactly one `add_ref` entry for that index is
appended, `sub_ref` and `epoch` are unchanged, and the returned strong pointer
carries bits identical to the weak pointer's bits. -/
theorem spec_C2_upgrade (d : HandleBits) (p : Pending) :
    ((WeakPointer.upgrade d p).1 = Except.error DeadComponentError.mk ↔
      p.get_epoch d.index ≠ d.epoch) ∧
    (p.get_epoch d.index ≠ d.epoch → (WeakPointer.upgrade d p).2 = p) ∧
    (p.get_epoch d.index = d.epoch →
      (WeakPointer.upgrade d p).1 = Except.ok d ∧
      (WeakPointer.upgrade d p).2.add_ref = p.add_ref ++ [d.index] ∧
      (WeakPointer.upgrade d p).2.sub_ref = p.sub_ref ∧
      (WeakPointer.upgrade d p).2.epoch = p.epoch) ∧
    (p.epoch.length ≤ d.index → p.get_epoch d.index = 0) := by
  refine ⟨?_, ?_, ?_, ?_⟩
  · unfold WeakPointer.upgrade
    split
    · rename_i hcond
      simpa using hcond
    · rename_i hcond
      rw [not_not] at hcond
      simp [hcond]
  · intro h
    unfold WeakPointer.upgrade
    rw [if_pos h]
  · intro h
    unfold WeakPointer.upgrade
    rw [if_neg (by simpa using h)]
    exact ⟨rfl, rfl, rfl, rfl⟩
  · intro h
    unfold Pending.get_epoch
    rw [List.getD_eq_getElem?_getD, List.getElem?_eq_none (by simpa using h)]
    rfl

theorem spec_C2_upgrade_witness :
    ((Pending.get_epoch ⟨[], [], [4]⟩ 0 = (⟨0, 4, 9⟩ : HandleBits).epoch) ∧
     ((WeakPointer.upgrade ⟨0, 4, 9⟩ ⟨[], [], [4]⟩).1
        = Except.ok (⟨0, 4, 9⟩ : HandleBits) ∧
      (WeakPointer.upgrade ⟨0, 4, 9⟩ ⟨[], [], [4]⟩).2.add_ref = [] ++ [0] ∧
      (WeakPointer.upgrade ⟨0, 4, 9⟩ ⟨[], [], [4]⟩).2.sub_ref = [] ∧
      (WeakPointer.upgrade ⟨0, 4, 9⟩ ⟨[], [], [4]⟩).2.epoch = [4])) ∧
    ((Pending.get_epoch ⟨[], [], [4]⟩ 2 ≠ (⟨2, 1, 9⟩ : HandleBits).epoch) ∧
     (WeakPointer.upgrade ⟨2, 1, 9⟩ ⟨[], [], [4]⟩).2 = ⟨[], [], [4]⟩) :=
  ⟨⟨by decide, (spec_C2_upgrade ⟨0, 4, 9⟩ ⟨[], [], [4]⟩).2.2.1 (by decide)⟩,
   ⟨by decide, (spec_C2_upgrade ⟨2, 1, 9⟩ ⟨[], [], [4]⟩).2.1 (by decide)⟩⟩

/-! ## Storage (src/storage.rs) -/

/-- `StorageInner` (src/storage.rs lines 16-20).  `free_list` is kept
most-recently-pushed first: `Vec::push` and `Vec::pop` act at the back of the
source's vector, cons and head act at the front here. -/
structure StorageInner (T : Type) where
  data : List T
  meta : List Nat
  free_list : List HandleBits
deriving DecidableEq, Repr

/-- `Storage` (src/storage.rs lines 55-59): the inner store, the shared
journal (inlined: the model is sequential, so the `Arc<Mutex<..>>` sharing
becomes explicit state passing) and the storage id. -/
structure Storage (T : Type) where
  inner : StorageInner T
  pending : Pending
  id : Nat
deriving DecidableEq, Repr

/-- `Storage::new_impl(data, meta, epoch)` (src/storage.rs lines 112-129);
the process-wide `STORAGE_UID` counter is modelled by the `uid` argument. -/
def Storage.new_impl {T : Type} (data : List T) (meta : List Nat)
    (epoch : List Nat) (uid : Nat) : Storage T :=
  { inner := { data := data, meta := meta, free_list := [] },
    pending := { add_ref := [], sub_ref := [], epoch := epoch },
    id := uid }

/-- `Storage::new()` (src/storage.rs lines 132-134). -/
def Storage.new (T : Type) (uid : Nat) : Storage T :=
  Storage.new_impl [] [] [] uid

/-- `impl FromIterator for Storage` (src/storage.rs lines 80-89): collect the
values; metas and epochs are all 0. -/
def Storage.fromIterator {T : Type} (values : List T) (uid : Nat) : Storage T :=
  Storage.new_impl values (List.replicate values.length 0)
    (List.replicate values.length 0) uid

/-- `Storage::create(value)` (src/storage.rs lines 268-290): pop the free list
if possible (the source debug-asserts `meta[i] == 0` there), overwrite the
slot and set `meta[i] = 1`; otherwise append the value and a meta of 1.
Returns the bits of the new strong pointer and the updated storage; the
journal is untouched. -/
def Storage.create {T : Type} (s : Storage T) (value : T) :
    HandleBits × Storage T :=
  match s.inner.free_list with
  | d :: rest =>
      (d, { s with inner := { data := s.inner.data.set d.index value,
                              meta := s.inner.meta.set d.index 1,
                              free_list := rest } })
  | [] =>
      (⟨s.inner.meta.length, 0, s.id⟩,
       { s with inner := { data := s.inner.data ++ [value],
                           meta := s.inner.meta ++ [1],
                           free_list := [] } })

/-- The `while pending.epoch.len() < data.len()` padding loop of
`sync_pending` (src/storage.rs lines 153-156). -/
def padEpochs (epoch : List Nat) (n : Nat) : List Nat :=
  epoch ++ List.replicate (n - epoch.length) 0

/-- The add-ref drain of `sync_pending` (src/storage.rs lines 157-160):
`meta[index] += 1` for each journalled index, in order (indices are in range
on the runs considered; the source panics otherwise). -/
def applyAdds : List Nat → List Nat → List Nat
  | [], meta => meta
  | i :: rest, meta => applyAdds rest (meta.set i (meta.getD i 0 + 1))

/-- The sub-ref drain of `sync_pending` (src/storage.rs lines 161-172):
`meta[index] -= 1`; when the slot reaches zero, `epoch[index] += 1` and a
descriptor carrying the bumped epoch and the storage id is pushed onto the
free list. -/
def applySubs (sid : Nat) :
    List Nat → List Nat → List Nat → List HandleBits →
      List Nat × List Nat × List HandleBits
  | [], meta, epoch, fl => (meta, epoch, fl)
  | i :: rest, meta, epoch, fl =>
      let m := meta.getD i 0 - 1
      if m = 0 then
        let e := epoch.getD i 0 + 1
        applySubs sid rest (meta.set i m) (epoch.set i e) (⟨i, e, sid⟩ :: fl)
      else
        applySubs sid rest (meta.set i m) epoch fl

/-- `Storage::sync_pending` (src/storage.rs lines 151-173): pad the epoch
vector up to the data length, drain `add_ref`, then drain `sub_ref`. -/
def Storage.sync_pending {T : Type} (s : Storage T) : Storage T :=
  let epoch1 := padEpochs s.pending.epoch s.inner.data.length
  let meta1 := applyAdds s.pending.add_ref s.inner.meta
  let r := applySubs s.id s.pending.sub_ref meta1 epoch1 s.inner.free_list
  { s with
    inner := { s.inner with meta := r.1, free_list := r.2.2 },
    pending := { add_ref := [], sub_ref := [], epoch := r.2.1 } }

/-- `Storage::pin(item)` (src/storage.rs lines 220-229): push `item.index`
onto `add_ref` and build a pointer from the index, the journal's current
epoch entry for it, and the storage id. -/
def Storage.pin {T : Type} (s : Storage T) (index : Nat) :
    HandleBits × Storage T :=
  (⟨index, s.pending.get_epoch index, s.id⟩,
   { s with pending := s.pending.push_add index })

/-- The iterator loop of `Iter::next` (src/lib.rs lines 459-476, constructed
by `Storage::iter` / `Storage::iter_all`, src/storage.rs lines 180-198),
unrolled over the remaining suffix of `data`: starting at slot `i`, yield
`(value, index)` for every slot, except that with `skip_lost` set the slots
whose meta is 0 are skipped. -/
def iterLoop (meta : List Nat) (skip_lost : Bool) :
    List T → Nat → List (T × Nat)
  | [], _ => []
  | v :: rest, i =>
      if skip_lost = false ∨ meta.getD i 0 ≠ 0 then
        (v, i) :: iterLoop meta skip_lost rest (i + 1)
      else
        iterLoop meta skip_lost rest (i + 1)

/-- `Storage::iter` (src/storage.rs lines 180-187): `skip_lost = true`,
starting index 0. -/
def Storage.iter {T : Type} (s : Storage T) : List (T × Nat) :=
  iterLoop s.inner.meta true s.inner.data 0

/-- `Storage::iter_all` (src/storage.rs lines 191-198): `skip_lost = false`,
starting index 0. -/
def Storage.iter_all {T : Type} (s : Storage T) : List (T × Nat) :=
  iterLoop s.inner.meta false s.inner.data 0

/-- C4: `Storage::create` with a non-empty free list pops the top descriptor
`d`, overwrites `data[d.index]`, sets `meta[d.index] = 1` and returns `d`,
whose bits carry the epoch recorded at the slot's last death (the journal's
current entry for that slot) and the storage id; with an empty free list it
appends the value, pushes a meta of 1 and returns
`(new_index, 0, storage_id)`.  In both cases the refcount 1 is visible in
`meta` immediately and the journal is not involved. -/
theorem spec_C4_create {T : Type} (s : Storage T) (value : T)
    (hsid : ∀ d ∈ s.inner.free_list, d.sid = s.id)
    (hep : ∀ d ∈ s.inner.free_list, d.epoch = s.pending.get_epoch d.index)
    (hlt : ∀ d ∈ s.inner.free_list, d.index < s.inner.meta.length) :
    (∀ d rest, s.inner.free_list = d :: rest →
      (s.create value).1 = d ∧
      (s.create value).2.inner.data = s.inner.data.set d.index value ∧
      (s.create value).2.inner.meta = s.inner.meta.set d.index 1 ∧
      (s.create value).2.inner.free_list = rest ∧
      d.sid = s.id ∧ d.epoch = s.pending.get_epoch d.index) ∧
    (s.inner.free_list = [] →
      (s.create value).1 = ⟨s.inner.meta.length, 0, s.id⟩ ∧
      (s.create value).2.inner.data = s.inner.data ++ [value] ∧
      (s.create value).2.inner.meta = s.inner.meta ++ [1]) ∧
    (s.create value).2.inner.meta.getD (s.create value).1.index 0 = 1 ∧
    (s.create value).2.pending = s.pending := by
  refine ⟨?_, ?_, ?_, ?_⟩
  · intro d rest heq
    have hd : d ∈ s.inner.free_list := by
      rw [heq]; exact List.mem_cons_self _ _
    simp only [Storage.create, heq]
    exact ⟨trivial, trivial, trivial, trivial, hsid d hd, hep d hd⟩
  · intro heq
    simp only [Storage.create, heq]
    exact ⟨trivial, trivial, trivial⟩
  · rcases hfl : s.inner.free_list with _ | ⟨d, rest⟩
    · simp only [Storage.create, hfl]
      rw [List.getD_eq_getElem?_getD, List.getElem?_append]
      simp
    · have hd : d ∈ s.inner.free_list := by
        rw [hfl]; exact List.mem_cons_self _ _
      simp only [Storage.create, hfl]
      rw [List.getD_eq_getElem?_getD, List.getElem?_set_self (hlt d hd)]
      rfl
  · rcases hfl : s.inner.free_list with _ | ⟨d, rest⟩ <;>
      simp only [Storage.create, hfl]

/-- A concrete storage with one dead, free-listed slot, used as the witness
input for the `create` contract. -/
def reuseStorage : Storage Nat :=
  ⟨⟨[10], [0], [⟨0, 1, 7⟩]⟩, ⟨[], [], [1]⟩, 7⟩

theorem spec_C4_create_witness :
    (∀ d ∈ reuseStorage.inner.free_list, d.sid = reuseStorage.id) ∧
    (∀ d ∈ reuseStorage.inner.free_list,
      d.epoch = reuseStorage.pending.get_epoch d.index) ∧
    (∀ d ∈ reuseStorage.inner.free_list,
      d.index < reuseStorage.inner.meta.length) ∧
    ((reuseStorage.create 20).1 = ⟨0, 1, 7⟩ ∧
     (reuseStorage.create 20).2.inner.meta.getD 0 0 = 1 ∧
     (reuseStorage.create 20).2.pending = reuseStorage.pending) :=
  ⟨by decide, by decide, by decide,
   ((spec_C4_create reuseStorage 20 (by decide) (by decide) (by decide)).1
      ⟨0, 1, 7⟩ [] rfl).1,
   (spec_C4_create reuseStorage 20 (by decide) (by decide) (by decide)).2.2.1,
   (spec_C4_create reuseStorage 20 (by decide) (by decide) (by decide)).2.2.2⟩

/-! ## Iteration over zombie storages (C7) -/

theorem getD_replicate_zero (n i : Nat) :
    (List.replicate n (0 : Nat)).getD i 0 = 0 := by
  rw [List.getD_eq_getElem?_getD, List.getElem?_replicate]
  split <;> rfl

theorem iterLoop_all_zero {T : Type} (n : Nat) :
    ∀ (rest : List T) (i : Nat), iterLoop (List.replicate n 0) true rest i = [] := by
  intro rest
  induction rest with
  | nil => intro i; rfl
  | cons v tail ih =>
      intro i
      simp only [iterLoop]
      rw [if_neg]
      · exact ih (i + 1)
      · simp [getD_replicate_zero]

theorem iterLoop_no_skip {T : Type} (meta : List Nat) :
    ∀ (rest : List T) (i : Nat),
      (iterLoop meta false rest i).map Prod.fst = rest := by
  intro rest
  induction rest with
  | nil => intro i; rfl
  | cons v tail ih =>
      intro i
      simp only [iterLoop]
      rw [if_pos (Or.inl trivial)]
      simp only [List.map_cons]
      rw [ih (i + 1)]

/-- C7: a storage built by `from_iterator` has `meta[i] == 0` for every slot,
so `iter` yields nothing while `iter_all` yields every element in insertion
order; concretely, from `[5, 7, 4, 6, 7]` the counts are 0 and 5, the element
at position 1 of `iter_all` is 7, and after pinning slot 1 and syncing, `iter`
yields exactly that slot. -/
theorem spec_C7_from_iterator :
    (∀ (T : Type) (values : List T) (uid : Nat),
      (Storage.fromIterator values uid).inner.meta
        = List.replicate values.length 0 ∧
      Storage.iter (Storage.fromIterator values uid) = [] ∧
      (Storage.iter_all (Storage.fromIterator values uid)).map Prod.fst
        = values) ∧
    (Storage.iter (Storage.fromIterator ([5, 7, 4, 6, 7] : List Nat) 0)).length
      = 0 ∧
    (Storage.iter_all
      (Storage.fromIterator ([5, 7, 4, 6, 7] : List Nat) 0)).length = 5 ∧
    ((Storage.iter_all
      (Storage.fromIterator ([5, 7, 4, 6, 7] : List Nat) 0))[1]?).map Prod.fst
      = some 7 ∧
    Storage.iter
      (((Storage.fromIterator ([5, 7, 4, 6, 7] : List Nat) 0).pin 1).2.sync_pending)
      = [(7, 1)] := by
  refine ⟨?_, by decide, by decide, by decide, by decide⟩
  intro T values uid
  refine ⟨rfl, ?_, ?_⟩
  · exact iterLoop_all_zero values.length values 0
  · exact iterLoop_no_skip _ values 0

/-! ## Unchecked indexing (C10) -/

/-- `impl Index for Storage` (src/storage.rs lines 61-69): unchecked read of
`data[index]`; only debug assertions look at the storage id and the bound, and
neither `meta` nor any epoch is consulted.  The bound is carried as a
hypothesis (the source's debug build asserts it; outside it the release build
is undefined). -/
def Storage.index {T : Type} (s : Storage T) (d : HandleBits)
    (h : d.index < s.inner.data.length) : T :=
  s.inner.data.get ⟨d.index, h⟩

/-- `impl IndexMut for Storage` (src/storage.rs lines 71-78): the unchecked
mutable access, modelled as overwriting `data[index]` with a value. -/
def Storage.index_mut {T : Type} (s : Storage T) (d : HandleBits) (value : T) :
    Storage T :=
  { s with inner := { s.inner with data := s.inner.data.set d.index value } }

/-- C10: indexing by a strong pointer performs no liveness or epoch check:
for a pointer whose index is in bounds and whose storage id matches, reading
returns `data[index]` and writing stores into `data[index]`, even when
`meta[index] == 0` and the pointer's epoch differs from the journal's entry;
`meta` and the journal are untouched by either access. -/
theorem spec_C10_index_unchecked {T : Type} (s : Storage T) (d : HandleBits)
    (value : T) (h : d.index < s.inner.data.length) (hsid : d.sid = s.id)
    (hmeta : s.inner.meta.getD d.index 0 = 0)
    (heps : s.pending.get_epoch d.index ≠ d.epoch) :
    s.index d h = s.inner.data.get ⟨d.index, h⟩ ∧
    (s.index_mut d value).inner.data = s.inner.data.set d.index value ∧
    (∀ h2 : d.index < (s.index_mut d value).inner.data.length,
      (s.index_mut d value).index d h2 = value) ∧
    (s.index_mut d value).inner.meta = s.inner.meta ∧
    (s.index_mut d value).pending = s.pending := by
  refine ⟨rfl, rfl, ?_, rfl, rfl⟩
  intro h2
  show (s.inner.data.set d.index value).get ⟨d.index, h2⟩ = value
  rw [List.get_eq_getElem]
  exact List.getElem_set_self h2

theorem spec_C10_index_unchecked_witness :
    (0 < 1 ∧ (0 : Nat) = 0 ∧
     ([0] : List Nat).getD 0 0 = 0 ∧
     Pending.get_epoch ⟨[], [], [3]⟩ 0 ≠ 1) ∧
    (({ inner := { data := [44], meta := [0], free_list := [] },
        pending := { add_ref := [], sub_ref := [], epoch := [3] },
        id := 0 } : Storage Nat).index ⟨0, 1, 0⟩ (by decide) = 44) :=
  ⟨⟨by decide, rfl, by decide, by decide⟩,
   by
     have h := spec_C10_index_unchecked
       ({ inner := { data := [44], meta := [0], free_list := [] },
          pending := { add_ref := [], sub_ref := [], epoch := [3] },
          id := 0 } : Storage Nat) ⟨0, 1, 0⟩ 55 (by decide) (by decide)
       (by decide) (by decide)
     simpa using h.1⟩

/-! ## Split and slices (C9) -/

/-- A slice view of the data array: the window plus the base-offset bits
(`Slice` of the storage revision; only its `offset` index and storage id
matter here). -/
structure Slice (T : Type) where
  slice : List T
  offset : HandleBits
deriving DecidableEq, Repr

/-- `StorageInner::split` (src/storage.rs lines 22-40): `split_at_mut` at the
pointer's index, then split off the pointed element.  The middle is kept as
the one-element window (the source returns `&mut` to its only element via
`get_unchecked(0)`, defined when the index is in range).  The side slices are
tagged with base offsets 0 and `index + 1` and the storage id. -/
def StorageInner.split {T : Type} (inner : StorageInner T)
    (offset : HandleBits) : Slice T × List T × Slice T :=
  let left := inner.data.take offset.index
  let temp := inner.data.drop offset.index
  (⟨left, ⟨0, 0, offset.sid⟩⟩, temp.take 1,
   ⟨temp.drop 1, ⟨offset.index + 1, 0, offset.sid⟩⟩)

/-- `Storage::split` (src/storage.rs lines 235-238): forwards to the inner
store (after a debug assertion on the storage id). -/
def Storage.split {T : Type} (s : Storage T) (d : HandleBits) :
    Slice T × List T × Slice T :=
  s.inner.split d

/-- Modelled from the spec: `Slice::get` is missing from `src/` (the slice
implementation lives in the revision of `lib.rs` that is not in the tree;
only `StorageInner::split`, which constructs slices, is present).  Per the
spec: subtract the slice's base offset from the handle's index and return the
element if the result falls within the slice length, else `None`; the
subtraction is on `usize`, so an index below the base wraps far out of range
and also yields `None`.  A matching storage id is only debug-asserted. -/
def Slice.get {T : Type} (sl : Slice T) (d : HandleBits) : Option T :=
  if sl.offset.index ≤ d.index then sl.slice[d.index - sl.offset.index]?
  else none

/-- C9: `split` on a handle with index `i` partitions the data array into the
left slice over `[0, i)` with base offset 0, the pointed element `data[i]`,
and the right slice over `[i+1, len)` with base offset `i+1`; the
concatenation of the three parts is the whole array, and both `left.get` and
`right.get` applied to the split handle itself give `None` (a slice returns
`Some` only when the index lands inside its range after subtracting the base
offset). -/
theorem spec_C9_split {T : Type} (s : Storage T) (d : HandleBits)
    (h : d.index < s.inner.data.length) :
    (s.split d).1.slice = s.inner.data.take d.index ∧
    (s.split d).1.offset = ⟨0, 0, d.sid⟩ ∧
    (s.split d).2.1 = [s.inner.data.get ⟨d.index, h⟩] ∧
    (s.split d).2.2.slice = s.inner.data.drop (d.index + 1) ∧
    (s.split d).2.2.offset = ⟨d.index + 1, 0, d.sid⟩ ∧
    (s.split d).1.slice.length = d.index ∧
    (s.split d).1.slice ++ (s.split d).2.1 ++ (s.split d).2.2.slice
      = s.inner.data ∧
    Slice.get (s.split d).1 d = none ∧
    Slice.get (s.split d).2.2 d = none := by
  have hmid : (s.inner.data.drop d.index).take 1
      = [s.inner.data.get ⟨d.index, h⟩] := by
    rw [List.drop_eq_getElem_cons h]
    rfl
  have hright : (s.inner.data.drop d.index).drop 1
      = s.inner.data.drop (d.index + 1) := by
    rw [List.drop_drop]
  refine ⟨rfl, rfl, hmid, hright, rfl, ?_, ?_, ?_, ?_⟩
  · show (s.inner.data.take d.index).length = d.index
    rw [List.length_take]
    omega
  · show s.inner.data.take d.index ++ (s.inner.data.drop d.index).take 1
        ++ (s.inner.data.drop d.index).drop 1 = s.inner.data
    rw [List.append_assoc, List.take_append_drop, List.take_append_drop]
  · show (if 0 ≤ d.index then (s.inner.data.take d.index)[d.index - 0]?
      else none) = none
    rw [if_pos (Nat.zero_le _)]
    apply List.getElem?_eq_none
    rw [List.length_take]
    omega
  · show (if d.index + 1 ≤ d.index then _ else none) = none
    rw [if_neg (by omega)]

/-- A concrete three-element storage for the split witness. -/
def splitStorage : Storage Nat :=
  ⟨⟨[1, 2, 3], [1, 1, 1], []⟩, ⟨[], [], []⟩, 0⟩

theorem spec_C9_split_witness :
    1 < splitStorage.inner.data.length ∧
    ((splitStorage.split ⟨1, 0, 0⟩).1.slice = [1] ∧
     (splitStorage.split ⟨1, 0, 0⟩).2.1 = [2] ∧
     (splitStorage.split ⟨1, 0, 0⟩).2.2.slice = [3] ∧
     Slice.get (splitStorage.split ⟨1, 0, 0⟩).1 ⟨1, 0, 0⟩ = none ∧
     Slice.get (splitStorage.split ⟨1, 0, 0⟩).2.2 ⟨1, 0, 0⟩ = none) := by
  have h := spec_C9_split splitStorage ⟨1, 0, 0⟩ (by decide)
  exact ⟨by decide, by simpa using h.1, by simpa using h.2.2.1,
    by simpa using h.2.2.2.1, h.2.2.2.2.2.2.2.1, h.2.2.2.2.2.2.2.2⟩

/-! ## Cursor (C8) -/

/-- Modelled from the spec: the `Cursor::next` matching `Storage::cursor`
(src/storage.rs lines 246-253), which constructs a cursor with no `skip_lost`
field, while the older `src/cursor.rs` in the tree (lines 156-174) still
reads such a flag; the spec fixes the missing rule: advance past every
`meta == 0` slot unconditionally, the same filtering as `iter`.  The loop
shape follows `Cursor::next`: at the end of the data array return `None`,
otherwise advance and yield the first slot whose meta is non-zero.  The
result pairs the yielded slot with the new cursor index; the loop walks the
remaining suffix of the data. -/
def cursorLoop (meta : List Nat) : List T → Nat → Option (Nat × Nat)
  | [], _ => none
  | _ :: rest, i =>
      if meta.getD i 0 ≠ 0 then some (i, i + 1) else cursorLoop meta rest (i + 1)

/-- One `Cursor::next` call from position `i` of the storage's cursor. -/
def cursorNext {T : Type} (s : Storage T) (i : Nat) : Option (Nat × Nat) :=
  cursorLoop s.inner.meta (s.inner.data.drop i) i

theorem cursorLoop_some {T : Type} (meta : List Nat) :
    ∀ (rest : List T) (i j k : Nat), cursorLoop meta rest i = some (j, k) →
      i ≤ j ∧ j < i + rest.length ∧ k = j + 1 ∧ meta.getD j 0 ≠ 0 ∧
      ∀ l, i ≤ l → l < j → meta.getD l 0 = 0 := by
  intro rest
  induction rest with
  | nil => intro i j k h; exact absurd h (by simp [cursorLoop])
  | cons v tail ih =>
      intro i j k h
      simp only [cursorLoop] at h
      by_cases hc : meta.getD i 0 ≠ 0
      · rw [if_pos hc] at h
        obtain ⟨h1, h2⟩ := Prod.mk.injEq .. ▸ Option.some.injEq .. ▸ h
        subst h1
        subst h2
        exact ⟨Nat.le_refl _, by simp, rfl, hc, fun l hl1 hl2 => by omega⟩
      · rw [if_neg hc] at h
        obtain ⟨h1, h2, h3, h4, h5⟩ := ih (i + 1) j k h
        refine ⟨by omega, by simp; omega, h3, h4, ?_⟩
        intro l hl1 hl2
        rcases Nat.eq_or_lt_of_le hl1 with hl | hl
        · rw [not_not] at hc; rw [← hl]; exact hc
        · exact h5 l hl hl2

theorem cursorLoop_none {T : Type} (meta : List Nat) :
    ∀ (rest : List T) (i : Nat),
      cursorLoop meta rest i = none ↔
        ∀ l, i ≤ l → l < i + rest.length → meta.getD l 0 = 0 := by
  intro rest
  induction rest with
  | nil =>
      intro i
      simp only [cursorLoop, List.length_nil, Nat.add_zero]
      constructor
      · intro _ l hl1 hl2; omega
      · intro _; trivial
  | cons v tail ih =>
      intro i
      simp only [cursorLoop, List.length_cons]
      by_cases hc : meta.getD i 0 ≠ 0
      · rw [if_pos hc]
        constructor
        · intro h; exact absurd h (by simp)
        · intro h
          exact absurd (h i (Nat.le_refl _) (by omega)) hc
      · rw [if_neg hc, not_not] at *
        rw [ih (i + 1)]
        constructor
        · intro h l hl1 hl2
          rcases Nat.eq_or_lt_of_le hl1 with hl | hl
          · rw [← hl]; exact hc
          · exact h l hl (by omega)
        · intro h l hl1 hl2
          exact h l (by omega) (by omega)

theorem cursorLoop_iterLoop {T : Type} (meta : List Nat) :
    ∀ (rest : List T) (i : Nat),
      (iterLoop meta true rest i = [] → cursorLoop meta rest i = none) ∧
      (∀ v j t, iterLoop meta true rest i = (v, j) :: t →
        cursorLoop meta rest i = some (j, j + 1)) := by
  intro rest
  induction rest with
  | nil => intro i; exact ⟨fun _ => rfl, fun v j t h => by simp [iterLoop] at h⟩
  | cons v tail ih =>
      intro i
      simp only [iterLoop, cursorLoop]
      by_cases hc : meta.getD i 0 ≠ 0
      · rw [if_pos (Or.inr hc), if_pos hc]
        exact ⟨fun h => by simp at h,
          fun v2 j t h => by
            obtain ⟨h1, h2⟩ := List.cons.injEq .. ▸ h
            obtain ⟨h3, h4⟩ := Prod.mk.injEq .. ▸ h1
            rw [← h4]⟩
      · rw [if_neg (by simpa using hc), if_neg hc]
        exact ih (i + 1)

/-- C8: the cursor produced by `Storage::cursor`, on each `next()` call from
position `i`, yields only slots with `meta != 0`, advancing past every slot
whose meta is 0, and returns `None` exactly when no live slot remains before
the end of the data array — the same liveness filtering rule as `iter`. -/
theorem spec_C8_cursor_next {T : Type} (s : Storage T) (i : Nat) :
    (∀ j k, cursorNext s i = some (j, k) →
      s.inner.meta.getD j 0 ≠ 0 ∧ i ≤ j ∧ j < s.inner.data.length ∧
      k = j + 1 ∧ ∀ l, i ≤ l → l < j → s.inner.meta.getD l 0 = 0) ∧
    (cursorNext s i = none ↔
      ∀ l, i ≤ l → l < s.inner.data.length → s.inner.meta.getD l 0 = 0) ∧
    (Storage.iter s = [] → cursorNext s 0 = none) ∧
    (∀ v j t, Storage.iter s = (v, j) :: t → cursorNext s 0 = some (j, j + 1)) := by
  have hlen : (s.inner.data.drop i).length = s.inner.data.length - i :=
    List.length_drop ..
  refine ⟨?_, ?_, ?_, ?_⟩
  · intro j k h
    obtain ⟨h1, h2, h3, h4, h5⟩ := cursorLoop_some s.inner.meta _ i j k h
    exact ⟨h4, h1, by omega, h3, h5⟩
  · rw [show cursorNext s i = cursorLoop s.inner.meta (s.inner.data.drop i) i
      from rfl, cursorLoop_none]
    constructor
    · intro h l hl1 hl2; exact h l hl1 (by omega)
    · intro h l hl1 hl2
      apply h l hl1
      omega
  · intro h
    exact (cursorLoop_iterLoop s.inner.meta s.inner.data 0).1 h
  · intro v j t h
    exact (cursorLoop_iterLoop s.inner.meta s.inner.data 0).2 v j t h

/-- A concrete storage with a dead slot 0 and a live slot 1 for the cursor
witness. -/
def cursorStorage : Storage Nat :=
  ⟨⟨[8, 9], [0, 1], []⟩, ⟨[], [], []⟩, 0⟩

theorem spec_C8_cursor_next_witness :
    cursorNext cursorStorage 0 = some (1, 2) ∧
    (cursorStorage.inner.meta.getD 1 0 ≠ 0 ∧ 0 ≤ 1 ∧
     1 < cursorStorage.inner.data.length ∧ 2 = 1 + 1 ∧
     ∀ l, 0 ≤ l → l < 1 → cursorStorage.inner.meta.getD l 0 = 0) :=
  ⟨by decide, (spec_C8_cursor_next cursorStorage 0).1 1 2 (by decide)⟩

/-! ## Operation traces (C1, C3) -/

/-- One storage operation of the kinds named by the claims: create a
component, clone or drop an existing strong pointer (named by its position in
the list of live pointers), pin an iterated item by its slot index, or run
`sync_pending`. -/
inductive Op (T : Type) where
  | create (value : T)
  | clonePtr (k : Nat)
  | dropPtr (k : Nat)
  | pin (index : Nat)
  | sync
deriving DecidableEq, Repr

/-- A trace state: the storage (with its journal) plus the bits of every
currently live strong pointer, most recently created first. -/
structure TraceState (T : Type) where
  storage : Storage T
  live : List HandleBits
deriving DecidableEq, Repr

/-- The initial state: `Storage::new()` and no live pointers. -/
def initState (T : Type) (uid : Nat) : TraceState T :=
  ⟨Storage.new T uid, []⟩

/-- One step of a trace.  `create` and `pin` add the returned pointer's bits
to the live list; `clonePtr` pushes an add-ref (`impl Clone for Pointer`) and
duplicates the bits; `dropPtr` pushes a sub-ref (`impl Drop for Pointer`) and
removes the pointer; `sync` runs `sync_pending`.  A clone or drop of an
out-of-range position is a no-op. -/
def stepOp {T : Type} (s : TraceState T) : Op T → TraceState T
  | .create value =>
      let r := s.storage.create value
      ⟨r.2, r.1 :: s.live⟩
  | .clonePtr k =>
      match s.live[k]? with
      | some d =>
          ⟨{ s.storage with pending := s.storage.pending.push_add d.index },
           d :: s.live⟩
      | none => s
  | .dropPtr k =>
      match s.live[k]? with
      | some d =>
          ⟨{ s.storage with pending := s.storage.pending.push_sub d.index },
           s.live.eraseIdx k⟩
      | none => s
  | .pin i =>
      let r := s.storage.pin i
      ⟨r.2, r.1 :: s.live⟩
  | .sync => ⟨s.storage.sync_pending, s.live⟩

/-- Run a trace from a state. -/
def runTrace {T : Type} (s : TraceState T) (ops : List (Op T)) : TraceState T :=
  List.foldl stepOp s ops

/-- The number of live strong pointers whose index is `i`. -/
def liveCount (live : List HandleBits) (i : Nat) : Nat :=
  live.countP (fun d => d.index == i)

/-- Is the operation a sync? -/
def Op.isSync {T : Type} : Op T → Bool
  | .sync => true
  | _ => false

/-- Checks that every `pin` of the trace targets an existing slot, as the
`Item` handed to `Storage::pin` by the iterators always does. -/
def pinsInRange {T : Type} : TraceState T → List (Op T) → Bool
  | _, [] => true
  | s, op :: rest =>
      (match op with
       | .pin i => decide (i < s.storage.inner.data.length)
       | _ => true) && pinsInRange (stepOp s op) rest

theorem getD_set (l : List Nat) (i j x : Nat) (h : i < l.length) :
    (l.set i x).getD j 0 = if i = j then x else l.getD j 0 := by
  rw [List.getD_eq_getElem?_getD, List.getD_eq_getElem?_getD, List.getElem?_set]
  by_cases hij : i = j
  · subst hij
    simp [h]
  · simp [hij]

theorem getD_append_single (l : List Nat) (a j : Nat) :
    (l ++ [a]).getD j 0
      = if j < l.length then l.getD j 0 else if j = l.length then a else 0 := by
  rw [List.getD_eq_getElem?_getD, List.getElem?_append]
  by_cases hj : j < l.length
  · rw [if_pos hj, if_pos hj, List.getD_eq_getElem?_getD]
  · rw [if_neg hj, if_neg hj]
    by_cases he : j = l.length
    · rw [if_pos he, he, Nat.sub_self]
      rfl
    · rw [if_neg he]
      have : 1 ≤ j - l.length := by omega
      rw [List.getElem?_eq_none (by simpa using this)]
      rfl

theorem getD_out_of_range (l : List Nat) (j : Nat) (h : l.length ≤ j) :
    l.getD j 0 = 0 := by
  rw [List.getD_eq_getElem?_getD, List.getElem?_eq_none h]
  rfl

theorem count_eq_zero_of_lt (l : List Nat) (j : Nat) (h : ∀ i ∈ l, i < j) :
    l.count j = 0 := by
  rw [List.count_eq_zero]
  intro hj
  exact absurd (h j hj) (by omega)

theorem count_append_single (l : List Nat) (a j : Nat) :
    (l ++ [a]).count j = l.count j + if a = j then 1 else 0 := by
  rw [List.count_append, List.count_cons, List.count_nil]
  by_cases ha : a = j <;> simp [ha]

theorem liveCount_cons (d : HandleBits) (live : List HandleBits) (j : Nat) :
    liveCount (d :: live) j
      = liveCount live j + if d.index = j then 1 else 0 := by
  show List.countP _ _ = _
  rw [List.countP_cons]
  by_cases hd : d.index = j <;> simp [liveCount, hd]

theorem liveCount_eraseIdx (live : List HandleBits) (k : Nat) (d : HandleBits)
    (h : live[k]? = some d) (j : Nat) :
    liveCount (live.eraseIdx k) j + (if d.index = j then 1 else 0)
      = liveCount live j := by
  obtain ⟨hk, he⟩ := List.getElem?_eq_some_iff.mp h
  have hsplit : live = live.take k ++ live[k] :: live.drop (k + 1) := by
    rw [← List.drop_eq_getElem_cons hk, List.take_append_drop]
  unfold liveCount
  rw [List.eraseIdx_eq_take_drop_succ, List.countP_append]
  conv_rhs => rw [hsplit]
  rw [List.countP_append, List.countP_cons, he]
  by_cases hd : d.index = j <;> simp [hd] <;> omega

theorem mem_of_getElem?_some {α : Type} {l : List α} {k : Nat} {d : α}
    (h : l[k]? = some d) : d ∈ l := by
  obtain ⟨hk, he⟩ := List.getElem?_eq_some_iff.mp h
  exact he ▸ List.getElem_mem hk


theorem count_cons_self (i : Nat) (rest : List Nat) :
    (i :: rest).count i = rest.count i + 1 := by
  rw [List.count_cons]
  simp

theorem count_cons_ne (i j : Nat) (rest : List Nat) (h : i ≠ j) :
    (i :: rest).count j = rest.count j := by
  rw [List.count_cons]
  have : (i == j) = false := by simpa using h
  rw [this]
  simp

theorem applyAdds_length (adds : List Nat) :
    ∀ meta : List Nat, (applyAdds adds meta).length = meta.length := by
  induction adds with
  | nil => intro meta; rfl
  | cons i rest ih =>
      intro meta
      show (applyAdds rest (meta.set i (meta.getD i 0 + 1))).length = _
      rw [ih, List.length_set]

theorem applyAdds_getD (adds : List Nat) :
    ∀ meta : List Nat, (∀ i ∈ adds, i < meta.length) →
      ∀ j, (applyAdds adds meta).getD j 0 = meta.getD j 0 + adds.count j := by
  induction adds with
  | nil =>
      intro meta _ j
      rw [List.count_nil]
      rfl
  | cons i rest ih =>
      intro meta hlt j
      have hi : i < meta.length := hlt i (List.mem_cons_self ..)
      show (applyAdds rest (meta.set i (meta.getD i 0 + 1))).getD j 0 = _
      rw [ih (meta.set i (meta.getD i 0 + 1))
        (by rw [List.length_set]
            exact fun a ha => hlt a (List.mem_cons_of_mem _ ha)) j]
      rw [getD_set meta i j _ hi]
      by_cases hij : i = j
      · subst hij
        rw [if_pos rfl, count_cons_self]
        omega
      · rw [if_neg hij, count_cons_ne i j rest hij]

theorem applySubs_spec (sid : Nat) (subs : List Nat) :
    ∀ (meta epoch : List Nat) (fl : List HandleBits),
      meta.length = epoch.length →
      (∀ i ∈ subs, i < meta.length) →
      (∀ j, subs.count j ≤ meta.getD j 0) →
      ((applySubs sid subs meta epoch fl).1.length = meta.length ∧
       (applySubs sid subs meta epoch fl).2.1.length = epoch.length) ∧
      (∀ j, (applySubs sid subs meta epoch fl).1.getD j 0
          = meta.getD j 0 - subs.count j) ∧
      (∀ j, (applySubs sid subs meta epoch fl).2.1.getD j 0
          = epoch.getD j 0 +
            if subs.count j ≠ 0 ∧ meta.getD j 0 = subs.count j then 1
            else 0) := by
  induction subs with
  | nil =>
      intro meta epoch fl _ _ _
      refine ⟨⟨rfl, rfl⟩, fun j => ?_, fun j => ?_⟩
      · rw [List.count_nil]
        rfl
      · rw [List.count_nil, if_neg (by simp)]
        rfl
  | cons i rest ih =>
      intro meta epoch fl hlen hlt hcnt
      have hi : i < meta.length := hlt i (List.mem_cons_self ..)
      have hie : i < epoch.length := hlen ▸ hi
      have hcs := count_cons_self i rest
      have hone : 1 ≤ meta.getD i 0 := by
        have := hcnt i
        omega
      by_cases hm : meta.getD i 0 - 1 = 0
      · -- the slot reaches zero: epoch bump and free-list push
        have hcr0 : rest.count i = 0 := by
          have := hcnt i
          omega
        have hstep : applySubs sid (i :: rest) meta epoch fl
            = applySubs sid rest (meta.set i (meta.getD i 0 - 1))
                (epoch.set i (epoch.getD i 0 + 1))
                (⟨i, epoch.getD i 0 + 1, sid⟩ :: fl) := by
          show (if meta.getD i 0 - 1 = 0 then _ else _) = _
          rw [if_pos hm]
        rw [hstep]
        obtain ⟨⟨hl1, hl2⟩, hmeta, hepoch⟩ :=
          ih (meta.set i (meta.getD i 0 - 1)) (epoch.set i (epoch.getD i 0 + 1))
            (⟨i, epoch.getD i 0 + 1, sid⟩ :: fl)
            (by rw [List.length_set, List.length_set]; exact hlen)
            (by rw [List.length_set]
                exact fun a ha => hlt a (List.mem_cons_of_mem _ ha))
            (by intro j
                rw [getD_set meta i j _ hi]
                by_cases hij : i = j
                · subst hij
                  rw [if_pos rfl]
                  omega
                · rw [if_neg hij]
                  have := hcnt j
                  rw [count_cons_ne i j rest hij] at this
                  omega)
        refine ⟨⟨by rw [hl1, List.length_set],
          by rw [hl2, List.length_set]⟩, fun j => ?_, fun j => ?_⟩
        · have h1 := hmeta j
          rw [getD_set meta i j _ hi] at h1
          by_cases hij : i = j
          · subst hij
            rw [if_pos rfl] at h1
            rw [h1, hcs]
            omega
          · rw [if_neg hij] at h1
            rw [h1, count_cons_ne i j rest hij]
        · have h1 := hepoch j
          by_cases hij : i = j
          · subst hij
            have hv : (epoch.set i (epoch.getD i 0 + 1)).getD i 0
                = epoch.getD i 0 + 1 := by
              rw [getD_set epoch i i _ hie]
              simp
            have hC1 : ¬(rest.count i ≠ 0 ∧
                (meta.set i (meta.getD i 0 - 1)).getD i 0 = rest.count i) :=
              fun hc => hc.1 hcr0
            have hC2 : (i :: rest).count i ≠ 0 ∧
                meta.getD i 0 = (i :: rest).count i := by
              rw [hcs]
              omega
            rw [h1, hv, if_neg hC1, if_pos hC2]
          · have hv : (epoch.set i (epoch.getD i 0 + 1)).getD j 0
                = epoch.getD j 0 := by
              rw [getD_set epoch i j _ hie, if_neg hij]
            have hC : (rest.count j ≠ 0 ∧
                  (meta.set i (meta.getD i 0 - 1)).getD j 0 = rest.count j) ↔
                ((i :: rest).count j ≠ 0 ∧
                  meta.getD j 0 = (i :: rest).count j) := by
              rw [getD_set meta i j _ hi, if_neg hij,
                count_cons_ne i j rest hij]
            rw [h1, hv, if_congr hC rfl rfl]
      · -- the slot stays positive: no epoch bump
        have hstep : applySubs sid (i :: rest) meta epoch fl
            = applySubs sid rest (meta.set i (meta.getD i 0 - 1)) epoch fl := by
          show (if meta.getD i 0 - 1 = 0 then _ else _) = _
          rw [if_neg hm]
        rw [hstep]
        obtain ⟨⟨hl1, hl2⟩, hmeta, hepoch⟩ :=
          ih (meta.set i (meta.getD i 0 - 1)) epoch fl
            (by rw [List.length_set]; exact hlen)
            (by rw [List.length_set]
                exact fun a ha => hlt a (List.mem_cons_of_mem _ ha))
            (by intro j
                rw [getD_set meta i j _ hi]
                by_cases hij : i = j
                · subst hij
                  rw [if_pos rfl]
                  have := hcnt i
                  omega
                · rw [if_neg hij]
                  have := hcnt j
                  rw [count_cons_ne i j rest hij] at this
                  omega)
        refine ⟨⟨by rw [hl1, List.length_set], hl2⟩, fun j => ?_, fun j => ?_⟩
        · have h1 := hmeta j
          rw [getD_set meta i j _ hi] at h1
          by_cases hij : i = j
          · subst hij
            rw [if_pos rfl] at h1
            rw [h1, hcs]
            omega
          · rw [if_neg hij] at h1
            rw [h1, count_cons_ne i j rest hij]
        · have h1 := hepoch j
          by_cases hij : i = j
          · subst hij
            have hms : (meta.set i (meta.getD i 0 - 1)).getD i 0
                = meta.getD i 0 - 1 := by
              rw [getD_set meta i i _ hi]
              simp
            have hC : (rest.count i ≠ 0 ∧
                  (meta.set i (meta.getD i 0 - 1)).getD i 0 = rest.count i) ↔
                ((i :: rest).count i ≠ 0 ∧
                  meta.getD i 0 = (i :: rest).count i) := by
              rw [hms, hcs]
              omega
            rw [h1, if_congr hC rfl rfl]
          · have hC : (rest.count j ≠ 0 ∧
                  (meta.set i (meta.getD i 0 - 1)).getD j 0 = rest.count j) ↔
                ((i :: rest).count j ≠ 0 ∧
                  meta.getD j 0 = (i :: rest).count j) := by
              rw [getD_set meta i j _ hi, if_neg hij,
                count_cons_ne i j rest hij]
            rw [h1, if_congr hC rfl rfl]

theorem padEpochs_getD (epoch : List Nat) (n j : Nat) :
    (padEpochs epoch n).getD j 0 = epoch.getD j 0 := by
  unfold padEpochs
  rw [List.getD_eq_getElem?_getD, List.getElem?_append]
  by_cases hj : j < epoch.length
  · rw [if_pos hj, List.getD_eq_getElem?_getD]
  · rw [if_neg hj, List.getElem?_replicate]
    rw [getD_out_of_range epoch j (by omega)]
    split <;> rfl

theorem padEpochs_length (epoch : List Nat) (n : Nat) (h : epoch.length ≤ n) :
    (padEpochs epoch n).length = n := by
  unfold padEpochs
  rw [List.length_append, List.length_replicate]
  omega

theorem sync_pending_spec {T : Type} (s : Storage T)
    (hlm : s.inner.meta.length = s.inner.data.length)
    (hle : s.pending.epoch.length ≤ s.inner.data.length)
    (hal : ∀ i ∈ s.pending.add_ref, i < s.inner.data.length)
    (hsl : ∀ i ∈ s.pending.sub_ref, i < s.inner.data.length)
    (hcnt : ∀ j, s.pending.sub_ref.count j
        ≤ s.inner.meta.getD j 0 + s.pending.add_ref.count j) :
    (∀ j, (s.sync_pending).inner.meta.getD j 0
        = s.inner.meta.getD j 0 + s.pending.add_ref.count j
          - s.pending.sub_ref.count j) ∧
    (∀ j, (s.sync_pending).pending.get_epoch j
        = s.pending.get_epoch j +
          if s.pending.sub_ref.count j ≠ 0 ∧
             s.inner.meta.getD j 0 + s.pending.add_ref.count j
               = s.pending.sub_ref.count j then 1 else 0) ∧
    (s.sync_pending).pending.add_ref = [] ∧
    (s.sync_pending).pending.sub_ref = [] ∧
    (s.sync_pending).inner.data = s.inner.data ∧
    (s.sync_pending).inner.meta.length = s.inner.meta.length ∧
    (s.sync_pending).pending.epoch.length = s.inner.data.length ∧
    (s.sync_pending).id = s.id := by
  have hpadlen : (padEpochs s.pending.epoch s.inner.data.length).length
      = s.inner.data.length := padEpochs_length _ _ hle
  have haddlen : (applyAdds s.pending.add_ref s.inner.meta).length
      = s.inner.meta.length := applyAdds_length _ _
  have haddgetD := applyAdds_getD s.pending.add_ref s.inner.meta
    (by intro i hi2; rw [hlm]; exact hal i hi2)
  obtain ⟨⟨hsl1, hsl2⟩, hsmeta, hsepoch⟩ :=
    applySubs_spec s.id s.pending.sub_ref
      (applyAdds s.pending.add_ref s.inner.meta)
      (padEpochs s.pending.epoch s.inner.data.length) s.inner.free_list
      (by rw [haddlen, hlm, hpadlen])
      (by intro i hi2
          rw [haddlen, hlm]
          exact hsl i hi2)
      (by intro j
          rw [haddgetD j]
          exact hcnt j)
  refine ⟨fun j => ?_, fun j => ?_, rfl, rfl, rfl, ?_, ?_, rfl⟩
  · show (applySubs s.id s.pending.sub_ref
        (applyAdds s.pending.add_ref s.inner.meta)
        (padEpochs s.pending.epoch s.inner.data.length)
        s.inner.free_list).1.getD j 0 = _
    rw [hsmeta j, haddgetD j]
  · show (applySubs s.id s.pending.sub_ref
        (applyAdds s.pending.add_ref s.inner.meta)
        (padEpochs s.pending.epoch s.inner.data.length)
        s.inner.free_list).2.1.getD j 0 = _
    rw [hsepoch j, padEpochs_getD]
    have hC : (s.pending.sub_ref.count j ≠ 0 ∧
          (applyAdds s.pending.add_ref s.inner.meta).getD j 0
            = s.pending.sub_ref.count j) ↔
        (s.pending.sub_ref.count j ≠ 0 ∧
          s.inner.meta.getD j 0 + s.pending.add_ref.count j
            = s.pending.sub_ref.count j) := by
      rw [haddgetD j]
    rw [if_congr hC rfl rfl]
    rfl
  · show (applySubs s.id s.pending.sub_ref
        (applyAdds s.pending.add_ref s.inner.meta)
        (padEpochs s.pending.epoch s.inner.data.length)
        s.inner.free_list).1.length = _
    rw [hsl1, haddlen]
  · show (applySubs s.id s.pending.sub_ref
        (applyAdds s.pending.add_ref s.inner.meta)
        (padEpochs s.pending.epoch s.inner.data.length)
        s.inner.free_list).2.1.length = _
    rw [hsl2, hpadlen]

theorem liveCount_eq_zero_of_lt (live : List HandleBits) (j : Nat)
    (h : ∀ d ∈ live, d.index < j) : liveCount live j = 0 := by
  unfold liveCount
  rw [List.countP_eq_zero]
  intro d hd
  have := h d hd
  simp
  omega

/-- The invariant carried along sync-free traces: lengths agree, the epoch
vector is not longer than the data, journal entries and live pointers are in
range, the free list is empty (no sync ever fills it), and for every index
the journalled balance `meta[i] + #add_ref(i) = liveCount(i) + #sub_ref(i)`
holds. -/
structure InvNS {T : Type} (s : TraceState T) : Prop where
  len_meta : s.storage.inner.meta.length = s.storage.inner.data.length
  len_epoch : s.storage.pending.epoch.length ≤ s.storage.inner.data.length
  live_lt : ∀ d ∈ s.live, d.index < s.storage.inner.data.length
  add_lt : ∀ i ∈ s.storage.pending.add_ref, i < s.storage.inner.data.length
  sub_lt : ∀ i ∈ s.storage.pending.sub_ref, i < s.storage.inner.data.length
  free_nil : s.storage.inner.free_list = []
  count_eq : ∀ i, s.storage.inner.meta.getD i 0
      + s.storage.pending.add_ref.count i
    = liveCount s.live i + s.storage.pending.sub_ref.count i

theorem initState_inv {T : Type} (uid : Nat) : InvNS (initState T uid) :=
  ⟨rfl, Nat.le_refl _, fun d hd => absurd hd (List.not_mem_nil _),
   fun i hi => absurd hi (List.not_mem_nil _),
   fun i hi => absurd hi (List.not_mem_nil _), rfl, fun _ => rfl⟩

theorem stepOp_inv {T : Type} (s : TraceState T) (op : Op T) (hs : InvNS s)
    (hok : ∀ i, op = Op.pin i → i < s.storage.inner.data.length)
    (hns : op.isSync = false) : InvNS (stepOp s op) := by
  cases op with
  | create value =>
      have hfl := hs.free_nil
      have hcr : s.storage.create value
          = (⟨s.storage.inner.meta.length, 0, s.storage.id⟩,
             { s.storage with
                 inner := { data := s.storage.inner.data ++ [value],
                            meta := s.storage.inner.meta ++ [1],
                            free_list := [] } }) := by
        unfold Storage.create
        rw [hfl]
      have hst : stepOp s (Op.create value)
          = ⟨(s.storage.create value).2, (s.storage.create value).1 :: s.live⟩ :=
        rfl
      rw [hst, hcr]
      have hlen := hs.len_meta
      refine ⟨?_, ?_, ?_, ?_, ?_, rfl, ?_⟩
      · show (s.storage.inner.meta ++ [1]).length
            = (s.storage.inner.data ++ [value]).length
        rw [List.length_append, List.length_append]
        simp [hlen]
      · show s.storage.pending.epoch.length
            ≤ (s.storage.inner.data ++ [value]).length
        rw [List.length_append]
        have := hs.len_epoch
        simp
        omega
      · intro d hd
        show d.index < (s.storage.inner.data ++ [value]).length
        rw [List.length_append]
        rcases List.mem_cons.mp hd with h | h
        · rw [h]
          show s.storage.inner.meta.length < _
          simp
          omega
        · have := hs.live_lt d h
          simp
          omega
      · intro i hi
        show i < (s.storage.inner.data ++ [value]).length
        rw [List.length_append]
        have := hs.add_lt i hi
        simp
        omega
      · intro i hi
        show i < (s.storage.inner.data ++ [value]).length
        rw [List.length_append]
        have := hs.sub_lt i hi
        simp
        omega
      · intro i
        show (s.storage.inner.meta ++ [1]).getD i 0
              + s.storage.pending.add_ref.count i
            = liveCount (⟨s.storage.inner.meta.length, 0, s.storage.id⟩ :: s.live) i
              + s.storage.pending.sub_ref.count i
        rw [getD_append_single, liveCount_cons]
        have hbase := hs.count_eq i
        rcases Nat.lt_trichotomy i s.storage.inner.meta.length with hlt | heq | hgt
        · rw [if_pos hlt, if_neg (by show s.storage.inner.meta.length ≠ i; omega)]
          omega
        · have hA0 : s.storage.pending.add_ref.count i = 0 :=
            count_eq_zero_of_lt _ _ (fun a ha => by
              have := hs.add_lt a ha
              omega)
          have hS0 : s.storage.pending.sub_ref.count i = 0 :=
            count_eq_zero_of_lt _ _ (fun a ha => by
              have := hs.sub_lt a ha
              omega)
          have hL0 : liveCount s.live i = 0 :=
            liveCount_eq_zero_of_lt _ _ (fun d hd => by
              have := hs.live_lt d hd
              omega)
          rw [if_neg (by omega), if_pos (by omega),
            if_pos (by show s.storage.inner.meta.length = i; omega)]
          omega
        · have hA0 : s.storage.pending.add_ref.count i = 0 :=
            count_eq_zero_of_lt _ _ (fun a ha => by
              have := hs.add_lt a ha
              omega)
          have hS0 : s.storage.pending.sub_ref.count i = 0 :=
            count_eq_zero_of_lt _ _ (fun a ha => by
              have := hs.sub_lt a ha
              omega)
          have hL0 : liveCount s.live i = 0 :=
            liveCount_eq_zero_of_lt _ _ (fun d hd => by
              have := hs.live_lt d hd
              omega)
          rw [if_neg (by omega), if_neg (by omega),
            if_neg (by show s.storage.inner.meta.length ≠ i; omega)]
          omega
  | clonePtr k =>
      rcases hk : s.live[k]? with _ | d
      · have hst : stepOp s (Op.clonePtr k) = s := by
          show (match s.live[k]? with
                | some d =>
                    (⟨{ s.storage with
                          pending := s.storage.pending.push_add d.index },
                      d :: s.live⟩ : TraceState T)
                | none => s) = s
          rw [hk]
        rw [hst]
        exact hs
      · have hd : d ∈ s.live := mem_of_getElem?_some hk
        have hdlt := hs.live_lt d hd
        have hst : stepOp s (Op.clonePtr k)
            = ⟨{ s.storage with
                   pending := s.storage.pending.push_add d.index },
               d :: s.live⟩ := by
          show (match s.live[k]? with
                | some d =>
                    (⟨{ s.storage with
                          pending := s.storage.pending.push_add d.index },
                      d :: s.live⟩ : TraceState T)
                | none => s) = _
          rw [hk]
        rw [hst]
        refine ⟨hs.len_meta, hs.len_epoch, ?_, ?_, hs.sub_lt, hs.free_nil, ?_⟩
        · intro e he
          rcases List.mem_cons.mp he with h | h
          · rw [h]; exact hdlt
          · exact hs.live_lt e h
        · intro i hi
          show i < s.storage.inner.data.length
          rcases List.mem_append.mp hi with h | h
          · exact hs.add_lt i h
          · rw [List.mem_singleton.mp h]
            exact hdlt
        · intro i
          show s.storage.inner.meta.getD i 0
                + (s.storage.pending.add_ref ++ [d.index]).count i
              = liveCount (d :: s.live) i + s.storage.pending.sub_ref.count i
          rw [count_append_single, liveCount_cons]
          have hbase := hs.count_eq i
          by_cases hdi : d.index = i
          · rw [if_pos hdi]
            omega
          · rw [if_neg hdi]
            omega
  | dropPtr k =>
      rcases hk : s.live[k]? with _ | d
      · have hst : stepOp s (Op.dropPtr k) = s := by
          show (match s.live[k]? with
                | some d =>
                    (⟨{ s.storage with
                          pending := s.storage.pending.push_sub d.index },
                      s.live.eraseIdx k⟩ : TraceState T)
                | none => s) = s
          rw [hk]
        rw [hst]
        exact hs
      · have hd : d ∈ s.live := mem_of_getElem?_some hk
        have hdlt := hs.live_lt d hd
        have hst : stepOp s (Op.dropPtr k)
            = ⟨{ s.storage with
                   pending := s.storage.pending.push_sub d.index },
               s.live.eraseIdx k⟩ := by
          show (match s.live[k]? with
                | some d =>
                    (⟨{ s.storage with
                          pending := s.storage.pending.push_sub d.index },
                      s.live.eraseIdx k⟩ : TraceState T)
                | none => s) = _
          rw [hk]
        rw [hst]
        have hsub : s.live.eraseIdx k ⊆ s.live := by
          rw [List.eraseIdx_eq_take_drop_succ]
          intro x hx
          rcases List.mem_append.mp hx with h | h
          · exact List.take_subset _ _ h
          · exact List.drop_subset _ _ h
        refine ⟨hs.len_meta, hs.len_epoch, ?_, hs.add_lt, ?_, hs.free_nil, ?_⟩
        · intro e he
          exact hs.live_lt e (hsub he)
        · intro i hi
          show i < s.storage.inner.data.length
          rcases List.mem_append.mp hi with h | h
          · exact hs.sub_lt i h
          · rw [List.mem_singleton.mp h]
            exact hdlt
        · intro i
          show s.storage.inner.meta.getD i 0 + s.storage.pending.add_ref.count i
              = liveCount (s.live.eraseIdx k) i
                + (s.storage.pending.sub_ref ++ [d.index]).count i
          rw [count_append_single]
          have hbase := hs.count_eq i
          have her := liveCount_eraseIdx s.live k d hk i
          by_cases hdi : d.index = i
          · rw [if_pos hdi] at her ⊢
            omega
          · rw [if_neg hdi] at her ⊢
            omega
  | pin i =>
      have hilt : i < s.storage.inner.data.length := hok i rfl
      have hst : stepOp s (Op.pin i)
          = ⟨{ s.storage with pending := s.storage.pending.push_add i },
             ⟨i, s.storage.pending.get_epoch i, s.storage.id⟩ :: s.live⟩ := rfl
      rw [hst]
      refine ⟨hs.len_meta, hs.len_epoch, ?_, ?_, hs.sub_lt, hs.free_nil, ?_⟩
      · intro e he
        rcases List.mem_cons.mp he with h | h
        · rw [h]; exact hilt
        · exact hs.live_lt e h
      · intro a ha
        show a < s.storage.inner.data.length
        rcases List.mem_append.mp ha with h | h
        · exact hs.add_lt a h
        · rw [List.mem_singleton.mp h]
          exact hilt
      · intro j
        show s.storage.inner.meta.getD j 0
              + (s.storage.pending.add_ref ++ [i]).count j
            = liveCount (⟨i, s.storage.pending.get_epoch i, s.storage.id⟩ :: s.live) j
              + s.storage.pending.sub_ref.count j
        rw [count_append_single, liveCount_cons]
        have hbase := hs.count_eq j
        by_cases hij : i = j
        · rw [if_pos hij]
          omega
        · rw [if_neg hij]
          omega
  | sync => exact absurd hns (by simp [Op.isSync])

theorem runTrace_inv {T : Type} :
    ∀ (ops : List (Op T)) (s : TraceState T), InvNS s →
      pinsInRange s ops = true → (∀ op ∈ ops, op.isSync = false) →
      InvNS (runTrace s ops) := by
  intro ops
  induction ops with
  | nil => intro s hs _ _; exact hs
  | cons op rest ih =>
      intro s hs hpin hns
      simp only [pinsInRange, Bool.and_eq_true] at hpin
      have hok : ∀ i, op = Op.pin i → i < s.storage.inner.data.length := by
        intro i he
        subst he
        exact of_decide_eq_true hpin.1
      exact ih (stepOp s op)
        (stepOp_inv s op hs hok (hns op (List.mem_cons_self ..)))
        hpin.2 (fun o ho => hns o (List.mem_cons_of_mem _ ho))

/-- C1: for every sequence of storage operations drawn from create,
strong-pointer clone, strong-pointer drop and pin (each pin targeting an
existing slot, as the `Item` handed to `Storage::pin` always does), followed
by a call to `sync_pending`, and for every index `i`, `meta[i]` equals the
number of live strong pointers whose index is `i`. -/
theorem spec_C1_refcount {T : Type} (ops : List (Op T)) (uid : Nat)
    (hns : ∀ op ∈ ops, op.isSync = false)
    (hok : pinsInRange (initState T uid) ops = true) :
    ∀ i,
      (runTrace (initState T uid) (ops ++ [Op.sync])).storage.inner.meta.getD i 0
        = liveCount (runTrace (initState T uid) (ops ++ [Op.sync])).live i := by
  intro i
  have hrun : runTrace (initState T uid) (ops ++ [Op.sync])
      = stepOp (runTrace (initState T uid) ops) Op.sync := by
    unfold runTrace
    rw [List.foldl_append]
    rfl
  have hinv : InvNS (runTrace (initState T uid) ops) :=
    runTrace_inv ops (initState T uid) (initState_inv uid) hok hns
  have hcnt : ∀ j,
      (runTrace (initState T uid) ops).storage.pending.sub_ref.count j
        ≤ (runTrace (initState T uid) ops).storage.inner.meta.getD j 0
          + (runTrace (initState T uid) ops).storage.pending.add_ref.count j := by
    intro j
    have := hinv.count_eq j
    omega
  obtain ⟨hmeta, _⟩ := sync_pending_spec (runTrace (initState T uid) ops).storage
    hinv.len_meta hinv.len_epoch hinv.add_lt hinv.sub_lt hcnt
  rw [hrun]
  show ((runTrace (initState T uid) ops).storage.sync_pending).inner.meta.getD i 0
      = liveCount (runTrace (initState T uid) ops).live i
  rw [hmeta i]
  have := hinv.count_eq i
  omega

theorem spec_C1_refcount_witness :
    (∀ op ∈ ([Op.create 1, Op.clonePtr 0, Op.dropPtr 0, Op.pin 0] : List (Op Nat)),
      op.isSync = false) ∧
    pinsInRange (initState Nat 0)
      [Op.create 1, Op.clonePtr 0, Op.dropPtr 0, Op.pin 0] = true ∧
    (runTrace (initState Nat 0)
      ([Op.create 1, Op.clonePtr 0, Op.dropPtr 0, Op.pin 0]
        ++ [Op.sync])).storage.inner.meta.getD 0 0
      = liveCount (runTrace (initState Nat 0)
        ([Op.create 1, Op.clonePtr 0, Op.dropPtr 0, Op.pin 0]
          ++ [Op.sync])).live 0 :=
  ⟨by decide, by decide,
   spec_C1_refcount [Op.create 1, Op.clonePtr 0, Op.dropPtr 0, Op.pin 0] 0
     (by decide) (by decide) 0⟩

/-! ## Epoch bumps and dead weak pointers (C3) -/

theorem create_pending {T : Type} (s : Storage T) (value : T) :
    (s.create value).2.pending = s.pending := by
  rcases hfl : s.inner.free_list with _ | ⟨d, rest⟩ <;>
    simp only [Storage.create, hfl]

/-- The weak-dead scenario's weak bits: `create(1)` on a fresh storage and
`downgrade` (which copies the pointer's bits). -/
def deadWeak : HandleBits := ((Storage.new Nat 0).create 1).1

/-- The weak-dead scenario's storage: after `create(1)`, dropping the strong
pointer (a `sub_ref` push) and `sync_pending`. -/
def deadStorage : Storage Nat :=
  (let r := (Storage.new Nat 0).create 1
   { r.2 with pending := r.2.pending.push_sub r.1.index }).sync_pending

/-- A concrete one-slot storage whose only refcount is about to drop to
zero, used as the witness input for the epoch-bump contract. -/
def syncInput : Storage Nat := ⟨⟨[5], [1], []⟩, ⟨[], [0], []⟩, 3⟩

/-- C3: whenever `meta[i]` transitions to zero during `sync_pending`,
`epoch[i]` is strictly incremented (by exactly one); consequently a weak
pointer created before the transition (its bits carry the old epoch) fails to
upgrade with `DeadComponentError`, and still fails after a subsequent
`create` reuses the slot, because `create` never touches the journal.
Concretely: `create(1)`, downgrade, drop the strong pointer, `sync_pending`;
upgrade returns `DeadComponentError`, and after another `create(1)` it still
does. -/
theorem spec_C3_epoch_bump :
    (∀ (T : Type) (s : Storage T),
      s.inner.meta.length = s.inner.data.length →
      s.pending.epoch.length ≤ s.inner.data.length →
      (∀ i ∈ s.pending.add_ref, i < s.inner.data.length) →
      (∀ i ∈ s.pending.sub_ref, i < s.inner.data.length) →
      (∀ j ∈ s.pending.sub_ref, s.pending.sub_ref.count j
          ≤ s.inner.meta.getD j 0 + s.pending.add_ref.count j) →
      ∀ i, s.inner.meta.getD i 0 ≠ 0 →
        (s.sync_pending).inner.meta.getD i 0 = 0 →
        ((s.sync_pending).pending.get_epoch i = s.pending.get_epoch i + 1 ∧
         ∀ w : HandleBits, w.index = i → w.epoch = s.pending.get_epoch i →
           (WeakPointer.upgrade w (s.sync_pending).pending).1
             = Except.error DeadComponentError.mk ∧
           ∀ value : T,
             (WeakPointer.upgrade w
               ((s.sync_pending).create value).2.pending).1
               = Except.error DeadComponentError.mk)) ∧
    ((WeakPointer.upgrade deadWeak deadStorage.pending).1
       = Except.error DeadComponentError.mk ∧
     (WeakPointer.upgrade deadWeak (deadStorage.create 1).2.pending).1
       = Except.error DeadComponentError.mk) := by
  refine ⟨?_, by decide, by decide⟩
  intro T s hlm hle hal hsl hcnt0 i hold hnew
  have hcnt : ∀ j, s.pending.sub_ref.count j
      ≤ s.inner.meta.getD j 0 + s.pending.add_ref.count j := by
    intro j
    by_cases hj : j ∈ s.pending.sub_ref
    · exact hcnt0 j hj
    · rw [List.count_eq_zero.mpr hj]
      omega
  obtain ⟨hmeta, hepoch, _⟩ := sync_pending_spec s hlm hle hal hsl hcnt
  have hm := hmeta i
  have hcond : s.pending.sub_ref.count i ≠ 0 ∧
      s.inner.meta.getD i 0 + s.pending.add_ref.count i
        = s.pending.sub_ref.count i := by
    rw [hm] at hnew
    have := hcnt i
    omega
  have hb := hepoch i
  rw [if_pos hcond] at hb
  have hup : ∀ w : HandleBits, w.index = i → w.epoch = s.pending.get_epoch i →
      (WeakPointer.upgrade w (s.sync_pending).pending).1
        = Except.error DeadComponentError.mk := by
    intro w hwi hwe
    unfold WeakPointer.upgrade
    rw [if_pos ?_]
    · show (s.sync_pending).pending.get_epoch w.index ≠ w.epoch
      rw [hwi, hwe, hb]
      omega
  refine ⟨hb, fun w hwi hwe => ⟨hup w hwi hwe, fun value => ?_⟩⟩
  rw [create_pending]
  exact hup w hwi hwe

theorem spec_C3_epoch_bump_witness :
    (syncInput.inner.meta.length = syncInput.inner.data.length ∧
     syncInput.pending.epoch.length ≤ syncInput.inner.data.length ∧
     (∀ i ∈ syncInput.pending.add_ref, i < syncInput.inner.data.length) ∧
     (∀ i ∈ syncInput.pending.sub_ref, i < syncInput.inner.data.length) ∧
     (∀ j ∈ syncInput.pending.sub_ref, syncInput.pending.sub_ref.count j
         ≤ syncInput.inner.meta.getD j 0 + syncInput.pending.add_ref.count j) ∧
     syncInput.inner.meta.getD 0 0 ≠ 0 ∧
     (syncInput.sync_pending).inner.meta.getD 0 0 = 0) ∧
    ((syncInput.sync_pending).pending.get_epoch 0
        = syncInput.pending.get_epoch 0 + 1 ∧
     ∀ w : HandleBits, w.index = 0 → w.epoch = syncInput.pending.get_epoch 0 →
       (WeakPointer.upgrade w (syncInput.sync_pending).pending).1
         = Except.error DeadComponentError.mk ∧
       ∀ value : Nat,
         (WeakPointer.upgrade w
           ((syncInput.sync_pending).create value).2.pending).1
           = Except.error DeadComponentError.mk) :=
  ⟨⟨by decide, by decide, by decide, by decide, by decide, by decide,
    by decide⟩,
   spec_C3_epoch_bump.1 Nat syncInput (by decide) (by decide) (by decide)
     (by decide) (by decide) 0 (by decide) (by decide)⟩
